import Mathlib

/-!
Verification of the semantic retrieval core of dsrp-canvas
(`backend/app/services/chunking_service.py`,
`backend/app/services/hybrid_search_service.py`,
`backend/app/services/vector_service.py`).

Texts are modelled as `List Char` with Python slicing/index semantics; float
scores are modelled as exact rationals; the PostgreSQL store is modelled as a
list of rows together with the semantics of the exact SQL statements the
service issues (filter/order/limit).  External collaborators (the embedding
provider, the cosine-distance operator of pgvector, the ts_rank function,
the sha256 digest) are parameters of the corresponding definitions, exactly
as they are black-box calls in the source.
-/

set_option maxRecDepth 10000

/-! ## Python primitives on texts -/

/-- Python `\s` / `str.strip()` whitespace for ASCII text: space, tab,
newline, carriage return, form feed, vertical tab. -/
def isPySpace (c : Char) : Bool :=
  c = ' ' || c = '\t' || c = '\n' || c = '\r' || c = '\x0c' || c = '\x0b'

/-- Python `\w` word characters (ASCII): letters, digits and underscore. -/
def isWordChar (c : Char) : Bool :=
  ('a' ≤ c && c ≤ 'z') || ('A' ≤ c && c ≤ 'Z') || ('0' ≤ c && c ≤ '9') || c = '_'

/-- Membership in the Python string `'.!?'` of sentence-ending punctuation. -/
def isSentEnd (c : Char) : Bool :=
  c = '.' || c = '!' || c = '?'

/-- Python `text[i]` (only used under bounds guards mirrored from the source;
the default is never reached there). -/
def getC (t : List Char) (i : Nat) : Char :=
  t.getD i ' '

/-- Python `text[a:b]` for `0 ≤ a ≤ b` (clamping at the ends). -/
def pySlice (t : List Char) (a b : Nat) : List Char :=
  (t.take b).drop a

/-- Python `str.strip()`: drop leading and trailing whitespace. -/
def pyStrip (t : List Char) : List Char :=
  ((t.dropWhile isPySpace).reverse.dropWhile isPySpace).reverse

/-- First hit of `f` on the offsets `i, i+1, ..., i+n-1`, mirroring a Python
`for offset in range(n):` loop whose body may `return`. -/
def firstHit (f : Nat → Option Nat) : Nat → Nat → Option Nat
  | 0, _ => none
  | n + 1, i =>
    match f i with
    | some v => some v
    | none => firstHit f n (i + 1)

/-! ## The semantic chunker (`chunking_service.py`) -/

/-- Constructor arguments of `SemanticChunker.__init__`. -/
structure ChunkCfg where
  chunkSize : Nat
  chunkOverlap : Nat
  minChunkSize : Nat
  respectSentences : Bool
  respectParagraphs : Bool
deriving DecidableEq, Repr

/-- Defaults of `SemanticChunker.__init__`: `chunk_size=800`,
`chunk_overlap=150`, `min_chunk_size=100`, both boundary flags on. -/
def defaultCfg : ChunkCfg :=
  ⟨800, 150, 100, true, true⟩

/-- The `Chunk` dataclass (the `metadata` dict, which the claims never
inspect, carries only the constant `chunk_method` entry and is omitted). -/
structure Chunk where
  text : List Char
  index : Nat
  start_char : Nat
  end_char : Nat
deriving DecidableEq, Repr

/-- The two-newline paragraph-break string searched by `_find_split_point`. -/
def nl2 : List Char :=
  ['\n', '\n']

/-- The `search_range = min(200, len(text) - target_pos, target_pos)` of
`_find_split_point` (the Python value is never negative at its call sites,
where `target_pos < len(text)`; natural subtraction agrees there). -/
def searchRangeAt (t : List Char) (target : Nat) : Nat :=
  min 200 (min (t.length - target) target)

/-- The paragraph-break loop of `_find_split_point`: for each offset, try
the forward position, then the backward one.  (In the backward test Python
evaluates `text[pos-2:pos]` even for `pos = 1`, where the negative start
yields a slice of length at most 1; the clamped `pySlice` also yields fewer
than two characters there, so the comparison with `"\n\n"` fails in both
semantics.) -/
def paraHit (cfg : ChunkCfg) (t : List Char) (target : Nat) : Option Nat :=
  if cfg.respectParagraphs then
    firstHit (fun off =>
      let p1 := target + off
      if p1 + 1 < t.length ∧ pySlice t p1 (p1 + 2) = nl2 then some (p1 + 2)
      else
        let p2 := target - off
        if 0 < p2 ∧ pySlice t (p2 - 2) p2 = nl2 then some p2 else none)
      (searchRangeAt t target) 0
  else none

/-- The sentence-ending loop of `_find_split_point`. -/
def sentHit (cfg : ChunkCfg) (t : List Char) (target : Nat) : Option Nat :=
  if cfg.respectSentences then
    firstHit (fun off =>
      let p1 := target + off
      if p1 < t.length ∧ isSentEnd (getC t p1) ∧ p1 + 1 < t.length ∧
          getC t (p1 + 1) = ' ' then some (p1 + 2)
      else
        let p2 := target - off
        if 0 < p2 ∧ isSentEnd (getC t (p2 - 1)) ∧ getC t p2 = ' ' then some p2
        else none)
      (searchRangeAt t target) 0
  else none

/-- The word-boundary fallback loop of `_find_split_point`
(`range(min(50, search_range))`). -/
def wordHit (t : List Char) (target : Nat) : Option Nat :=
  firstHit (fun off =>
    let p1 := target + off
    if p1 < t.length ∧ getC t p1 = ' ' then some (p1 + 1)
    else
      let p2 := target - off
      if 0 < p2 ∧ getC t p2 = ' ' then some (p2 + 1) else none)
    (min 50 (searchRangeAt t target)) 0

/-- `SemanticChunker._find_split_point(text, target_pos)`: the three
prioritized searches (paragraph break, sentence ending, word boundary),
falling back to `target_pos` itself. -/
def findSplitPoint (cfg : ChunkCfg) (t : List Char) (target : Nat) : Nat :=
  match paraHit cfg t target with
  | some v => v
  | none =>
    match sentHit cfg t target with
    | some v => v
    | none =>
      match wordHit t target with
      | some v => v
      | none => target

/-- One iteration of the `while` loop of `SemanticChunker.chunk`: the end
position of the chunk starting at `s` (`len(text)` for the final slice,
otherwise the snapped split point near `s + chunk_size`). -/
def stepEnd (cfg : ChunkCfg) (t : List Char) (s : Nat) : Nat :=
  if t.length ≤ s + cfg.chunkSize then t.length
  else findSplitPoint cfg t (s + cfg.chunkSize)

/-- The chunk emitted by the iteration starting at `s` (empty list when the
stripped slice is below `min_chunk_size` and is silently dropped). -/
def emitChunk (cfg : ChunkCfg) (t : List Char) (s idx : Nat) : List Chunk :=
  let e := stepEnd cfg t s
  let ct := pyStrip (pySlice t s e)
  if cfg.minChunkSize ≤ ct.length then [⟨ct, idx, s, e⟩] else []

/-- The next start position of the loop: `none` when the iteration breaks
(`end >= len(text)`); otherwise `end` when `end - chunk_overlap` would not
advance past `start`, else the snapped `end - chunk_overlap`. -/
def stepNext (cfg : ChunkCfg) (t : List Char) (s : Nat) : Option Nat :=
  if t.length ≤ stepEnd cfg t s then none
  else if stepEnd cfg t s - cfg.chunkOverlap ≤ s then some (stepEnd cfg t s)
  else some (findSplitPoint cfg t (stepEnd cfg t s - cfg.chunkOverlap))

/-- Big-step semantics of the `while start < len(text)` loop of
`SemanticChunker.chunk` on the pre-stripped text: `ChunkRun cfg t s idx l`
holds when the loop entered with cursor `s` and next chunk index `idx`
terminates and emits exactly the chunks `l`. -/
inductive ChunkRun (cfg : ChunkCfg) (t : List Char) : Nat → Nat → List Chunk → Prop
  | done (s idx : Nat) : t.length ≤ s → ChunkRun cfg t s idx []
  | brk (s idx : Nat) : s < t.length → stepNext cfg t s = none →
      ChunkRun cfg t s idx (emitChunk cfg t s idx)
  | cont (s idx s' : Nat) (rest : List Chunk) : s < t.length →
      stepNext cfg t s = some s' →
      ChunkRun cfg t s' (idx + (emitChunk cfg t s idx).length) rest →
      ChunkRun cfg t s idx (emitChunk cfg t s idx ++ rest)

/-- `SemanticChunker.chunk(text)` returns `res`: empty input (or input that
strips to empty) yields `[]`; otherwise the loop runs on the stripped text
from `start = 0`, `chunk_index = 0`. -/
def chunkSpec (cfg : ChunkCfg) (input : List Char) (res : List Chunk) : Prop :=
  let t := pyStrip input
  (t = [] → res = []) ∧ (t ≠ [] → ChunkRun cfg t 0 0 res)

/-! ## Paragraph splitting and paragraph packing (`chunk_by_paragraphs`) -/

/-- Index of the last `'\n'` in a list, if any. -/
def lastNlIdx : List Char → Option Nat
  | [] => none
  | c :: cs =>
    match lastNlIdx cs with
    | some k => some (k + 1)
    | none => if c = '\n' then some 0 else none

/-- Greedy match of the tail of the regex `\n\s*\n` (after its leading
newline): Python's backtracking takes the longest whitespace run that still
ends in a newline, i.e. everything up to the last `'\n'` of the maximal
whitespace run.  Returns how many characters of `rest` the match consumes. -/
def paraBreakLen (rest : List Char) : Option Nat :=
  match lastNlIdx (rest.takeWhile isPySpace) with
  | none => none
  | some k => some (k + 1)

/-- Left-to-right scan of `re.split(r'\n\s*\n', text)`.  The fuel argument is
only a structural-recursion device: every recursive call consumes at least
one character, so `text.length + 1` units never run out. -/
def paraSplitAux : Nat → List Char → List Char → List (List Char)
  | 0, l, acc => [acc.reverse ++ l]
  | _ + 1, [], acc => [acc.reverse]
  | f + 1, c :: rest, acc =>
    if c = '\n' then
      match paraBreakLen rest with
      | some k => acc.reverse :: paraSplitAux f (rest.drop k) []
      | none => paraSplitAux f rest ('\n' :: acc)
    else paraSplitAux f rest (c :: acc)

/-- `PARAGRAPH_BREAK.split(text)` for `PARAGRAPH_BREAK = re.compile(r'\n\s*\n')`. -/
def paraSplit (t : List Char) : List (List Char) :=
  paraSplitAux (t.length + 1) t []

/-- `SemanticChunker._split_into_paragraphs`: split on paragraph breaks,
strip each piece, drop the empty ones. -/
def splitIntoParagraphs (t : List Char) : List (List Char) :=
  ((paraSplit t).map pyStrip).filter (· ≠ [])

/-- The `for para in paragraphs` accumulation loop of
`SemanticChunker.chunk_by_paragraphs`, with state `(cur, idx, sc)` for
`current_chunk`, `chunk_index` and `start_char`, including the final flush. -/
def packParas (cfg : ChunkCfg) : List (List Char) → List Char → Nat → Nat → List Chunk
  | [], cur, idx, sc =>
    if cur ≠ [] ∧ cfg.minChunkSize ≤ cur.length then [⟨cur, idx, sc, sc + cur.length⟩]
    else []
  | p :: ps, cur, idx, sc =>
    if cur.length + p.length + 2 ≤ cfg.chunkSize then
      packParas cfg ps (if cur = [] then p else cur ++ nl2 ++ p) idx sc
    else if cur ≠ [] ∧ cfg.minChunkSize ≤ cur.length then
      ⟨cur, idx, sc, sc + cur.length⟩ :: packParas cfg ps p (idx + 1) (sc + cur.length + 2)
    else packParas cfg ps p idx sc

/-- `SemanticChunker.chunk_by_paragraphs(text)`. -/
def chunkByParagraphs (cfg : ChunkCfg) (input : List Char) : List Chunk :=
  packParas cfg (splitIntoParagraphs input) [] 0 0

/-! ## The hybrid search service (`hybrid_search_service.py`) -/

/-- The `SearchResult` dataclass.  Scores are exact rationals standing for
the Python floats; the `metadata` dict, which no claim inspects, is
omitted. -/
structure SR where
  id : String
  content : String
  vector_score : ℚ
  keyword_score : ℚ
  combined_score : ℚ
  source : Option String
deriving DecidableEq, Repr

/-- A row of the `document_embeddings` table as consulted by the two search
queries: `chunk_id`, `content`, `filename` and the stored vector. -/
structure DocRow where
  chunk_id : String
  content : String
  filename : Option String
  embedding : List ℚ
deriving DecidableEq, Repr

/-- Constructor arguments of `HybridSearchService.__init__`
(`vector_weight=0.7`, `keyword_weight=0.3`, `rrf_k=60`). -/
structure FusionCfg where
  vectorWeight : ℚ
  keywordWeight : ℚ
  rrfK : ℕ
deriving DecidableEq, Repr

/-- The defaults of `HybridSearchService.__init__`. -/
def defaultFusion : FusionCfg :=
  ⟨7 / 10, 3 / 10, 60⟩

/-- Stable insertion of `x` in front of the first element whose key is not
larger, used to model the stable descending sorts (`ORDER BY ... DESC` and
`list.sort(key=..., reverse=True)`). -/
def insDesc (key : α → ℚ) (x : α) : List α → List α
  | [] => [x]
  | y :: ys => if key x < key y then y :: insDesc key x ys else x :: y :: ys

/-- Stable descending sort by a rational key. -/
def sortDescBy (key : α → ℚ) : List α → List α
  | [] => []
  | x :: xs => insDesc key x (sortDescBy key xs)

/-- Separator-joined concatenation, Python `sep.join(items)`. -/
def joinSep (sep : List Char) : List (List Char) → List Char
  | [] => []
  | [x] => x
  | x :: xs => x ++ sep ++ joinSep sep xs

/-- One step of the maximal-run scan: extend the current run on a matching
character, otherwise flush the (non-empty) run. -/
def runsStep (p : Char → Bool) (c : Char) (st : List Char × List (List Char)) :
    List Char × List (List Char) :=
  if p c then (c :: st.1, st.2)
  else ([], if st.1 = [] then st.2 else st.1 :: st.2)

/-- Maximal runs of characters satisfying `p`, in order, dropping the
separating characters (the semantics of Python's `str.split()` with the
non-`p` characters as separators). -/
def runsBy (p : Char → Bool) (l : List Char) : List (List Char) :=
  let r := l.foldr (runsStep p) ([], [])
  if r.1 = [] then r.2 else r.1 :: r.2

/-- `re.sub(r'[^\w\s]', ' ', query)`: every character that is neither a word
character nor whitespace is replaced by a space. -/
def pySub (q : List Char) : List Char :=
  q.map (fun c => if isWordChar c || isPySpace c then c else ' ')

/-- `HybridSearchService._preprocess_query`: substitute, split on
whitespace (`str.split()` = maximal non-whitespace runs), strip each word,
keep the non-empty ones, join with `' | '`. -/
def preprocessQuery (q : List Char) : List Char :=
  joinSep " | ".data
    (((runsBy (fun c => !isPySpace c) (pySub q)).map pyStrip).filter (· ≠ []))

/-- `HybridSearchService._vector_search(query, limit, threshold)`.  The
embedding of the query is the provider's answer (`none` models an absent
embedding, and Python's `if not embedding` also treats an empty vector as
absent); `dist` is the store's cosine-distance operator `<=>`.  The SQL
query computes `similarity = 1 - dist`, keeps rows with
`similarity >= threshold`, orders by similarity descending and truncates
to `limit`. -/
def vectorSearch (dist : List ℚ → List ℚ → ℚ) (rows : List DocRow)
    (embOpt : Option (List ℚ)) (limit : Nat) (threshold : ℚ) : List SR :=
  match embOpt with
  | none => []
  | some q =>
    if q = [] then []
    else
      (((rows.map (fun r => (r, 1 - dist r.embedding q))).filter
            (fun p => threshold ≤ p.2)
          |> sortDescBy (·.2)).take limit).map
        (fun p => ⟨p.1.chunk_id, p.1.content, p.2, 0, 0, p.1.filename⟩)

/-- `HybridSearchService._keyword_search(query, limit)`.  `tsRank` models
`ts_rank(to_tsvector(content), to_tsquery(tq))` and returns `none` when the
`@@` match fails; preprocessing that leaves no term returns `[]` without
consulting the store. -/
def keywordSearch (tsRank : List Char → String → Option ℚ) (rows : List DocRow)
    (q : List Char) (limit : Nat) : List SR :=
  let tq := preprocessQuery q
  if tq = [] then []
  else
    (((rows.filterMap (fun r => (tsRank tq r.content).map (fun s => (r, s))))
        |> sortDescBy (·.2)).take limit).map
      (fun p => ⟨p.1.chunk_id, p.1.content, 0, p.2, 0, p.1.filename⟩)

/-- `results_by_id[result.id] = result` when absent, followed by an in-place
update of the entry — the dict is an insertion-ordered association list with
unique ids. -/
def upsertEntry (rid : String) (init : SR) (f : SR → SR) (m : List SR) : List SR :=
  if m.any (fun e => e.id = rid) then m.map (fun e => if e.id = rid then f e else e)
  else m ++ [f init]

/-- The vector pass of `_reciprocal_rank_fusion`: 1-based ranks, each item
adds `vector_weight / (rrf_k + rank)` to its combined score and overwrites
the entry's `vector_score` with its own. -/
def procVec (fc : FusionCfg) : List SR → Nat → List SR → List SR
  | [], _, m => m
  | r :: rs, rank, m =>
    procVec fc rs (rank + 1)
      (upsertEntry r.id r
        (fun e =>
          { e with
            combined_score := e.combined_score + fc.vectorWeight / (fc.rrfK + rank : ℚ)
            vector_score := r.vector_score }) m)

/-- The keyword pass of `_reciprocal_rank_fusion`: same shape, adding
`keyword_weight / (rrf_k + rank)` and overwriting `keyword_score`. -/
def procKw (fc : FusionCfg) : List SR → Nat → List SR → List SR
  | [], _, m => m
  | r :: rs, rank, m =>
    procKw fc rs (rank + 1)
      (upsertEntry r.id r
        (fun e =>
          { e with
            combined_score := e.combined_score + fc.keywordWeight / (fc.rrfK + rank : ℚ)
            keyword_score := r.keyword_score }) m)

/-- `HybridSearchService._reciprocal_rank_fusion(vector_results,
keyword_results)`: both passes over an initially empty dict, returning
`list(results_by_id.values())` in insertion order. -/
def rrf (fc : FusionCfg) (vr kr : List SR) : List SR :=
  procKw fc kr 1 (procVec fc vr 1 [])

/-- `HybridSearchService.search_documents(query, limit, vector_threshold)`
on the default `use_reranking=True` path: fetch `2*limit` candidates from
each signal, return `[]` when both are empty, otherwise fuse with RRF, sort
by combined score descending and truncate to `limit`. -/
def searchDocuments (fc : FusionCfg) (dist : List ℚ → List ℚ → ℚ)
    (tsRank : List Char → String → Option ℚ) (rows : List DocRow)
    (embOpt : Option (List ℚ)) (q : List Char) (limit : Nat)
    (threshold : ℚ) : List SR :=
  let vres := vectorSearch dist rows embOpt (limit * 2) threshold
  let kres := keywordSearch tsRank rows q (limit * 2)
  if vres = [] ∧ kres = [] then []
  else (sortDescBy (·.combined_score) (rrf fc vres kres)).take limit

/-! ## The vector index write path (`vector_service.py`) -/

/-- A row of `concept_embeddings` (the `updated_at` timestamp, set by the
store clock and never read back by the service, is omitted). -/
structure ConceptRec where
  concept_name : String
  content : String
  content_hash : String
  embedding : List ℚ
deriving DecidableEq, Repr

/-- A row of `document_embeddings` as written by `embed_document_chunk`. -/
structure ChunkRec where
  document_id : String
  chunk_index : Nat
  filename : Option String
  content : String
  content_hash : String
  embedding : List ℚ
  metadata : String
deriving DecidableEq, Repr

/-- A keyed store with `ON CONFLICT (key) DO UPDATE` upsert semantics,
modelling one table as an association list with unique keys. -/
def tableUpsert (key : String) (v : α) : List (String × α) → List (String × α)
  | [] => [(key, v)]
  | (k, w) :: rest =>
    if k = key then (k, v) :: rest else (k, w) :: tableUpsert key v rest

/-- `SELECT ... WHERE <key column> = %s` on such a table. -/
def tableGet (key : String) (s : List (String × α)) : Option α :=
  (s.find? (fun p => p.1 = key)).map (·.2)

/-- Result of an upsert call: the returned boolean, the store afterwards,
and how many times the embedding provider was invoked during the call. -/
structure UpsertOut (α : Type) where
  ok : Bool
  store : List (String × α)
  calls : Nat
deriving Repr

/-- The content string built by `embed_concept`: `"Concept: {name}"` plus a
`"\nDescription: {description}"` line when the description is truthy. -/
def conceptContent (name : String) (desc : Option String) : String :=
  match desc with
  | none => "Concept: " ++ name
  | some d =>
    if d = "" then "Concept: " ++ name
    else "Concept: " ++ name ++ "\nDescription: " ++ d

/-- `VectorService.embed_concept(concept_id, concept_name, description)`:
hash the content; if the stored row for the id carries the same hash,
return success without calling the provider; otherwise embed and upsert the
row.  The source's `if not embedding: return False` guard fails both on an
absent answer and — by Python truthiness — on an empty vector, leaving the
store untouched in either case.  `sha` and `provider` are the external
`hashlib.sha256` digest and embedding provider. -/
def embedConcept (sha : String → String) (provider : String → Option (List ℚ))
    (store : List (String × ConceptRec)) (cid name : String)
    (desc : Option String) : UpsertOut ConceptRec :=
  let content := conceptContent name desc
  let h := sha content
  match tableGet cid store with
  | some rec =>
    if rec.content_hash = h then ⟨true, store, 0⟩
    else
      match provider content with
      | none => ⟨false, store, 1⟩
      | some v =>
        if v = [] then ⟨false, store, 1⟩
        else ⟨true, tableUpsert cid ⟨name, content, h, v⟩ store, 1⟩
  | none =>
    match provider content with
    | none => ⟨false, store, 1⟩
    | some v =>
      if v = [] then ⟨false, store, 1⟩
      else ⟨true, tableUpsert cid ⟨name, content, h, v⟩ store, 1⟩

/-- `VectorService.embed_document_chunk(document_id, chunk_id, chunk_index,
content, filename, metadata)`: same hash-skip / embed / upsert shape keyed
by `chunk_id`, with the same `if not embedding` guard that also treats an
empty vector as absent. -/
def embedDocumentChunk (sha : String → String) (provider : String → Option (List ℚ))
    (store : List (String × ChunkRec)) (docId chunkId : String) (chunkIndex : Nat)
    (content : String) (filename : Option String) (metadata : String) :
    UpsertOut ChunkRec :=
  let h := sha content
  match tableGet chunkId store with
  | some rec =>
    if rec.content_hash = h then ⟨true, store, 0⟩
    else
      match provider content with
      | none => ⟨false, store, 1⟩
      | some v =>
        if v = [] then ⟨false, store, 1⟩
        else
          ⟨true, tableUpsert chunkId ⟨docId, chunkIndex, filename, content, h, v, metadata⟩ store, 1⟩
  | none =>
    match provider content with
    | none => ⟨false, store, 1⟩
    | some v =>
      if v = [] then ⟨false, store, 1⟩
      else
        ⟨true, tableUpsert chunkId ⟨docId, chunkIndex, filename, content, h, v, metadata⟩ store, 1⟩

/-! ## Store lemmas -/

theorem tableGet_upsert_self (key : String) (v : α) (s : List (String × α)) :
    tableGet key (tableUpsert key v s) = some v := by
  induction s with
  | nil => simp [tableUpsert, tableGet]
  | cons p rest ih =>
    obtain ⟨k, w⟩ := p
    by_cases h : k = key
    · simp [tableUpsert, tableGet, h]
    · simpa [tableUpsert, tableGet, List.find?, h] using ih

/-- C5: an upsert whose content hashes to the stored `content_hash` is a
success-returning no-op that never calls the provider; consequently two
consecutive upserts of identical fresh content whose embedding succeeds
(the provider answers a non-empty vector — Python truthiness treats an
empty one as absent) call the provider exactly once, for `embed_concept`
as for `embed_document_chunk`. -/
theorem C5_idempotent_upsert :
    (∀ (sha : String → String) (provider : String → Option (List ℚ))
        (store : List (String × ConceptRec)) (cid name : String)
        (desc : Option String) (cr : ConceptRec),
        tableGet cid store = some cr →
        cr.content_hash = sha (conceptContent name desc) →
        embedConcept sha provider store cid name desc = ⟨true, store, 0⟩) ∧
    (∀ (sha : String → String) (provider : String → Option (List ℚ))
        (store : List (String × ConceptRec)) (cid name : String)
        (desc : Option String) (v : List ℚ),
        tableGet cid store = none →
        provider (conceptContent name desc) = some v →
        v ≠ [] →
        (embedConcept sha provider store cid name desc).ok = true ∧
        (embedConcept sha provider store cid name desc).calls = 1 ∧
        embedConcept sha provider
            (embedConcept sha provider store cid name desc).store cid name desc =
          ⟨true, (embedConcept sha provider store cid name desc).store, 0⟩) ∧
    (∀ (sha : String → String) (provider : String → Option (List ℚ))
        (store : List (String × ChunkRec)) (docId chunkId : String)
        (chunkIndex : Nat) (content : String) (filename : Option String)
        (metadata : String) (cr : ChunkRec),
        tableGet chunkId store = some cr →
        cr.content_hash = sha content →
        embedDocumentChunk sha provider store docId chunkId chunkIndex content
            filename metadata = ⟨true, store, 0⟩) ∧
    (∀ (sha : String → String) (provider : String → Option (List ℚ))
        (store : List (String × ChunkRec)) (docId chunkId : String)
        (chunkIndex : Nat) (content : String) (filename : Option String)
        (metadata : String) (v : List ℚ),
        tableGet chunkId store = none →
        provider content = some v →
        v ≠ [] →
        (embedDocumentChunk sha provider store docId chunkId chunkIndex content
            filename metadata).ok = true ∧
        (embedDocumentChunk sha provider store docId chunkId chunkIndex content
            filename metadata).calls = 1 ∧
        embedDocumentChunk sha provider
            (embedDocumentChunk sha provider store docId chunkId chunkIndex content
              filename metadata).store docId chunkId chunkIndex content filename
            metadata =
          ⟨true,
            (embedDocumentChunk sha provider store docId chunkId chunkIndex content
              filename metadata).store, 0⟩) := by
  refine ⟨?_, ?_, ?_, ?_⟩
  · intro sha provider store cid name desc cr hget hhash
    simp [embedConcept, hget, hhash]
  · intro sha provider store cid name desc v hget hprov hv
    simp only [embedConcept, hget, hprov]
    rw [if_neg hv]
    refine ⟨rfl, rfl, ?_⟩
    simp [embedConcept, tableGet_upsert_self]
  · intro sha provider store docId chunkId chunkIndex content filename metadata cr hget hhash
    simp [embedDocumentChunk, hget, hhash]
  · intro sha provider store docId chunkId chunkIndex content filename metadata v hget
      hprov hv
    simp only [embedDocumentChunk, hget, hprov]
    rw [if_neg hv]
    refine ⟨rfl, rfl, ?_⟩
    simp [embedDocumentChunk, tableGet_upsert_self]

/-- Witness for C5 at a concrete input: a fresh concept upsert embeds once
and the identical repeat is a success-returning no-op. -/
theorem C5_idempotent_upsert_witness :
    tableGet "c1" ([] : List (String × ConceptRec)) = none ∧
    (fun _ : String => some ([1] : List ℚ)) (conceptContent "energy" none) = some [1] ∧
    ((embedConcept id (fun _ => some [1]) [] "c1" "energy" none).ok = true ∧
      (embedConcept id (fun _ => some [1]) [] "c1" "energy" none).calls = 1 ∧
      embedConcept id (fun _ => some [1])
          (embedConcept id (fun _ => some [1]) [] "c1" "energy" none).store "c1"
          "energy" none =
        ⟨true, (embedConcept id (fun _ => some [1]) [] "c1" "energy" none).store, 0⟩) :=
  ⟨rfl, rfl,
    C5_idempotent_upsert.2.1 id (fun _ => some [1]) [] "c1" "energy" none [1] rfl rfl
      (by decide)⟩

/-- C8: when the provider answers absent for new or changed content, both
upsert operations return failure with the store exactly as before (so no
null or zero vector row is ever written). -/
theorem C8_absent_embedding_no_write :
    (∀ (sha : String → String) (provider : String → Option (List ℚ))
        (store : List (String × ConceptRec)) (cid name : String)
        (desc : Option String),
        provider (conceptContent name desc) = none →
        (tableGet cid store = none ∨
          ∀ cr : ConceptRec, tableGet cid store = some cr →
            cr.content_hash ≠ sha (conceptContent name desc)) →
        embedConcept sha provider store cid name desc = ⟨false, store, 1⟩) ∧
    (∀ (sha : String → String) (provider : String → Option (List ℚ))
        (store : List (String × ChunkRec)) (docId chunkId : String)
        (chunkIndex : Nat) (content : String) (filename : Option String)
        (metadata : String),
        provider content = none →
        (tableGet chunkId store = none ∨
          ∀ cr : ChunkRec, tableGet chunkId store = some cr →
            cr.content_hash ≠ sha content) →
        embedDocumentChunk sha provider store docId chunkId chunkIndex content
            filename metadata = ⟨false, store, 1⟩) := by
  constructor
  · intro sha provider store cid name desc hprov hmiss
    rcases hget : tableGet cid store with _ | cr
    · simp [embedConcept, hget, hprov]
    · rcases hmiss with hnone | hne
      · rw [hget] at hnone; exact absurd hnone (by simp)
      · simp [embedConcept, hget, hprov, hne cr hget]
  · intro sha provider store docId chunkId chunkIndex content filename metadata hprov hmiss
    rcases hget : tableGet chunkId store with _ | cr
    · simp [embedDocumentChunk, hget, hprov]
    · rcases hmiss with hnone | hne
      · rw [hget] at hnone; exact absurd hnone (by simp)
      · simp [embedDocumentChunk, hget, hprov, hne cr hget]

/-- Witness for C8 at a concrete input: an absent provider answer on a fresh
chunk id leaves the (empty) store unchanged and reports failure. -/
theorem C8_absent_embedding_no_write_witness :
    (fun _ : String => (none : Option (List ℚ))) "body" = none ∧
    embedDocumentChunk id (fun _ => none) [] "d1" "d1:0" 0 "body" none "{}" =
      ⟨false, [], 1⟩ :=
  ⟨rfl,
    C8_absent_embedding_no_write.2 id (fun _ => none) [] "d1" "d1:0" 0 "body" none "{}"
      rfl (Or.inl rfl)⟩

/-! ## Reciprocal rank fusion lemmas -/

/-- Dict lookup in the insertion-ordered association list of results. -/
def lookupSR (m : List SR) (x : String) : Option SR :=
  m.find? (fun e => e.id = x)

/-- 1-based rank minus one: the position of the first result with id `x`. -/
def idxOfId (x : String) : List SR → Option Nat
  | [] => none
  | r :: rs => if r.id = x then some 0 else (idxOfId x rs).map (· + 1)

/-- Both RRF passes have the same shape: walk the ranked list, upserting
`g rank incoming` into the dict. -/
def foldPass (g : Nat → SR → SR → SR) : List SR → Nat → List SR → List SR
  | [], _, m => m
  | r :: rs, rank, m => foldPass g rs (rank + 1) (upsertEntry r.id r (g rank r) m)

/-- The entry update of the vector pass. -/
def gVec (fc : FusionCfg) (rank : Nat) (r e : SR) : SR :=
  { e with
    combined_score := e.combined_score + fc.vectorWeight / (fc.rrfK + rank : ℚ)
    vector_score := r.vector_score }

/-- The entry update of the keyword pass. -/
def gKw (fc : FusionCfg) (rank : Nat) (r e : SR) : SR :=
  { e with
    combined_score := e.combined_score + fc.keywordWeight / (fc.rrfK + rank : ℚ)
    keyword_score := r.keyword_score }

theorem procVec_eq_foldPass (fc : FusionCfg) (rs : List SR) (rank : Nat) (m : List SR) :
    procVec fc rs rank m = foldPass (gVec fc) rs rank m := by
  induction rs generalizing rank m with
  | nil => rfl
  | cons r rs ih =>
    simp only [procVec, foldPass]
    rw [ih]
    rfl

theorem procKw_eq_foldPass (fc : FusionCfg) (rs : List SR) (rank : Nat) (m : List SR) :
    procKw fc rs rank m = foldPass (gKw fc) rs rank m := by
  induction rs generalizing rank m with
  | nil => rfl
  | cons r rs ih =>
    simp only [procKw, foldPass]
    rw [ih]
    rfl

theorem find?_mapUpdate (rid x : String) (hx : x ≠ rid) (f : SR → SR)
    (hf : ∀ e, (f e).id = e.id) (m : List SR) :
    (m.map (fun e => if e.id = rid then f e else e)).find? (fun e => e.id = x) =
      m.find? (fun e => e.id = x) := by
  induction m with
  | nil => rfl
  | cons e m ih =>
    by_cases he : e.id = rid
    · have h1 : ¬ (f e).id = x := by rw [hf e, he]; exact fun hh => hx hh.symm
      have h2 : ¬ e.id = x := by rw [he]; exact fun hh => hx hh.symm
      rw [List.map_cons, if_pos he]
      simp only [List.find?, decide_eq_false h1, decide_eq_false h2]
      exact ih
    · rw [List.map_cons, if_neg he]
      by_cases hex : e.id = x
      · simp only [List.find?, decide_eq_true hex]
      · simp only [List.find?, decide_eq_false hex]
        exact ih

theorem upsertEntry_cons_other (rid : String) (init : SR) (f : SR → SR) (e : SR)
    (he : e.id ≠ rid) (m : List SR) :
    upsertEntry rid init f (e :: m) = e :: upsertEntry rid init f m := by
  by_cases hm : (m.any (fun x => x.id = rid)) = true
  · have h : ((e :: m).any (fun x => x.id = rid)) = true := by
      simp [List.any_cons, hm]
    simp only [upsertEntry, if_pos h, if_pos hm, List.map_cons, if_neg he]
  · have h : ¬ ((e :: m).any (fun x => x.id = rid)) = true := by
      simp [List.any_cons, hm, he]
    simp only [upsertEntry, if_neg h, if_neg hm, List.cons_append]

theorem lookupSR_upsertEntry_self (rid : String) (init : SR) (f : SR → SR)
    (hf : ∀ e, (f e).id = e.id) (hinit : init.id = rid) (m : List SR) :
    lookupSR (upsertEntry rid init f m) rid =
      some (f ((lookupSR m rid).getD init)) := by
  induction m with
  | nil =>
    have h : (f init).id = rid := by rw [hf init, hinit]
    simp [upsertEntry, lookupSR, List.find?, h]
  | cons e m ih =>
    by_cases he : e.id = rid
    · have h : ((e :: m).any (fun x => x.id = rid)) = true := by
        simp [List.any_cons, he]
      have hfe : (f e).id = rid := by rw [hf e, he]
      simp [upsertEntry, if_pos h, lookupSR, List.find?, he, hfe]
    · rw [upsertEntry_cons_other rid init f e he m]
      simp only [lookupSR, List.find?] at ih ⊢
      simp [he, ih]

theorem lookupSR_upsertEntry_other (rid x : String) (hx : x ≠ rid) (init : SR)
    (f : SR → SR) (hf : ∀ e, (f e).id = e.id) (hinit : init.id = rid) (m : List SR) :
    lookupSR (upsertEntry rid init f m) x = lookupSR m x := by
  induction m with
  | nil =>
    have h : (f init).id = rid := by rw [hf init, hinit]
    have hne : ¬ (f init).id = x := by rw [h]; exact fun hh => hx hh.symm
    simp [upsertEntry, lookupSR, List.find?, hne]
  | cons e m ih =>
    by_cases he : e.id = rid
    · have h : ((e :: m).any (fun y => y.id = rid)) = true := by
        simp [List.any_cons, he]
      have hfe : (f e).id = e.id := hf e
      have hne : ¬ e.id = x := by rw [he]; exact fun hh => hx hh.symm
      have hfx : ¬ (f e).id = x := by rw [hf e, he]; exact fun hh => hx hh.symm
      simp only [upsertEntry, if_pos h, lookupSR, List.map_cons, if_pos he,
        List.find?]
      simp [hfx, hne, find?_mapUpdate rid x hx f hf m]
    · rw [upsertEntry_cons_other rid init f e he m]
      simp only [lookupSR, List.find?] at ih ⊢
      by_cases hex : e.id = x
      · simp [hex]
      · simp [hex, ih]

/-- Placeholder entry for `getD`; never the value of a successful lookup. -/
def dSR : SR :=
  ⟨"", "", 0, 0, 0, none⟩

theorem idxOfId_eq_none (x : String) (rs : List SR) (h : ∀ r ∈ rs, r.id ≠ x) :
    idxOfId x rs = none := by
  induction rs with
  | nil => rfl
  | cons r rs ih =>
    simp only [idxOfId, if_neg (h r (List.mem_cons_self r rs)),
      ih (fun r' hr' => h r' (List.mem_cons_of_mem r hr')), Option.map_none']

theorem idxOfId_getD (x : String) (rs : List SR) (i : Nat)
    (h : idxOfId x rs = some i) : (rs.getD i dSR).id = x ∧ rs.getD i dSR ∈ rs := by
  induction rs generalizing i with
  | nil => simp [idxOfId] at h
  | cons r rs ih =>
    by_cases hr : r.id = x
    · simp only [idxOfId, if_pos hr, Option.some.injEq] at h
      subst h
      exact ⟨hr, List.mem_cons_self r rs⟩
    · simp only [idxOfId, if_neg hr] at h
      rcases hi : idxOfId x rs with _ | j
      · rw [hi] at h; simp at h
      · rw [hi] at h
        simp only [Option.map_some', Option.some.injEq] at h
        subst h
        obtain ⟨h1, h2⟩ := ih j hi
        exact ⟨by simpa using h1, by simp [List.getD_cons_succ]; right; simpa using h2⟩

theorem lookupSR_foldPass (g : Nat → SR → SR → SR)
    (hg : ∀ n r e, (g n r e).id = e.id) (rs : List SR)
    (hnd : (rs.map (fun r => r.id)).Nodup) (rank : Nat) (m : List SR) (x : String) :
    lookupSR (foldPass g rs rank m) x =
      match idxOfId x rs with
      | none => lookupSR m x
      | some i =>
        some (g (rank + i) (rs.getD i dSR) ((lookupSR m x).getD (rs.getD i dSR))) := by
  induction rs generalizing rank m with
  | nil => simp [foldPass, idxOfId]
  | cons r rs ih =>
    simp only [List.map_cons, List.nodup_cons] at hnd
    obtain ⟨hrid, hnd'⟩ := hnd
    by_cases hx : r.id = x
    · have hnone : idxOfId x rs = none := by
        refine idxOfId_eq_none x rs (fun r' hr' h' => hrid ?_)
        rw [← hx] at h'
        exact h' ▸ List.mem_map_of_mem (fun r => r.id) hr'
      simp only [foldPass, idxOfId, if_pos hx]
      rw [ih hnd', hnone]
      subst hx
      rw [lookupSR_upsertEntry_self r.id r (g rank r) (hg rank r) rfl m]
      simp
    · simp only [foldPass, idxOfId, if_neg hx]
      rw [ih hnd',
        lookupSR_upsertEntry_other r.id x (fun h => hx h.symm) r (g rank r)
          (hg rank r) rfl m]
      rcases hi : idxOfId x rs with _ | j
      · simp
      · simp only [Option.map_some', List.getD_cons_succ]
        have : rank + 1 + j = rank + (j + 1) := by omega
        rw [this]

theorem idsOf_upsertEntry_nodup (rid : String) (init : SR) (f : SR → SR)
    (hf : ∀ e, (f e).id = e.id) (hinit : init.id = rid) (m : List SR)
    (hm : (m.map (fun e => e.id)).Nodup) :
    ((upsertEntry rid init f m).map (fun e => e.id)).Nodup := by
  by_cases h : (m.any (fun e => e.id = rid)) = true
  · rw [upsertEntry, if_pos h]
    have : ((m.map (fun e => if e.id = rid then f e else e)).map (fun e => e.id)) =
        m.map (fun e => e.id) := by
      rw [List.map_map]
      refine List.map_congr_left (fun e _ => ?_)
      by_cases he : e.id = rid <;> simp [he, hf]
    rw [this]
    exact hm
  · rw [upsertEntry, if_neg h]
    rw [List.map_append]
    simp only [List.map_cons, List.map_nil, hf, hinit]
    rw [List.nodup_append]
    refine ⟨hm, List.nodup_singleton rid, ?_⟩
    intro y hy
    simp only [List.mem_map] at hy
    obtain ⟨e, he, hye⟩ := hy
    simp only [List.mem_singleton]
    intro hcon
    rw [hcon] at hye
    rw [List.any_eq_true] at h
    exact h ⟨e, he, by simp [hye]⟩

theorem idsOf_foldPass_nodup (g : Nat → SR → SR → SR)
    (hg : ∀ n r e, (g n r e).id = e.id) (rs : List SR) (rank : Nat) (m : List SR)
    (hm : (m.map (fun e => e.id)).Nodup) :
    ((foldPass g rs rank m).map (fun e => e.id)).Nodup := by
  induction rs generalizing rank m with
  | nil => exact hm
  | cons r rs ih =>
    exact ih (rank + 1) _ (idsOf_upsertEntry_nodup r.id r (g rank r) (hg rank r) rfl m hm)

theorem mem_iff_lookupSR (m : List SR) (hm : (m.map (fun e => e.id)).Nodup) (e : SR) :
    e ∈ m ↔ lookupSR m e.id = some e := by
  constructor
  · intro hmem
    induction m with
    | nil => simp at hmem
    | cons e' m ih =>
      simp only [List.map_cons, List.nodup_cons] at hm
      rcases List.mem_cons.mp hmem with h | h
      · subst h
        simp [lookupSR, List.find?]
      · by_cases hid : e'.id = e.id
        · exact absurd (hid ▸ List.mem_map_of_mem (fun y => y.id) h) hm.1
        · simpa [lookupSR, List.find?, hid] using ih hm.2 h
  · intro hl
    exact List.mem_of_find?_eq_some hl

theorem lookupSR_id (m : List SR) (x : String) (e : SR) (hl : lookupSR m x = some e) :
    e.id = x := by
  have := List.find?_some hl
  simpa using this

theorem idxOfId_isSome_of_mem (r : SR) (rs : List SR) (h : r ∈ rs) :
    (idxOfId r.id rs).isSome := by
  induction rs with
  | nil => simp at h
  | cons r' rs ih =>
    by_cases hr : r'.id = r.id
    · simp [idxOfId, hr]
    · rcases List.mem_cons.mp h with h' | h'
      · exact absurd (congrArg SR.id h'.symm) hr
      · simp only [idxOfId, if_neg hr]
        rcases hi : idxOfId r.id rs with _ | j
        · rw [hi] at ih; simpa using ih h'
        · simp

/-- The inner (vector) pass of `rrf` as seen through `lookupSR`. -/
theorem lookupSR_rrf (fc : FusionCfg) (vr kr : List SR)
    (hv : (vr.map (fun r => r.id)).Nodup) (hk : (kr.map (fun r => r.id)).Nodup)
    (x : String) :
    lookupSR (rrf fc vr kr) x =
      match idxOfId x kr with
      | none =>
        match idxOfId x vr with
        | none => none
        | some i =>
          some (gVec fc (1 + i) (vr.getD i dSR) (vr.getD i dSR))
      | some j =>
        some (gKw fc (1 + j) (kr.getD j dSR)
          ((match idxOfId x vr with
            | none => none
            | some i =>
              some (gVec fc (1 + i) (vr.getD i dSR) (vr.getD i dSR))).getD
            (kr.getD j dSR))) := by
  have hgv : ∀ (n : Nat) (r e : SR), (gVec fc n r e).id = e.id := fun _ _ _ => rfl
  have hgk : ∀ (n : Nat) (r e : SR), (gKw fc n r e).id = e.id := fun _ _ _ => rfl
  have hinner :
      lookupSR (foldPass (gVec fc) vr 1 []) x =
        match idxOfId x vr with
        | none => none
        | some i => some (gVec fc (1 + i) (vr.getD i dSR) (vr.getD i dSR)) := by
    rw [lookupSR_foldPass (gVec fc) hgv vr hv 1 [] x]
    rcases idxOfId x vr with _ | i <;> simp [lookupSR, List.find?]
  rw [rrf, procKw_eq_foldPass, procVec_eq_foldPass,
    lookupSR_foldPass (gKw fc) hgk kr hk 1 _ x]
  rcases idxOfId x kr with _ | j
  · simpa using hinner
  · simp only [hinner]

/-- Demo input of the C2 scenario: vector ranking `[A, B, C]`. -/
def rrfDemoVec : List SR :=
  [⟨"A", "", 0, 0, 0, none⟩, ⟨"B", "", 0, 0, 0, none⟩, ⟨"C", "", 0, 0, 0, none⟩]

/-- Demo input of the C2 scenario: keyword ranking `[B, A, D]`. -/
def rrfDemoKw : List SR :=
  [⟨"B", "", 0, 0, 0, none⟩, ⟨"A", "", 0, 0, 0, none⟩, ⟨"D", "", 0, 0, 0, none⟩]

/-- Expected fused output of the C2 scenario (exact rational scores). -/
def rrfDemoOut : List SR :=
  [⟨"A", "", 0, 0, 7/610 + 3/620, none⟩, ⟨"B", "", 0, 0, 7/620 + 3/610, none⟩,
   ⟨"C", "", 0, 0, 7/630, none⟩, ⟨"D", "", 0, 0, 3/630, none⟩]

/-- C2: reciprocal rank fusion gives every item of either ranked list the
combined score `vector_weight/(rrf_k + vector_rank) + keyword_weight/(rrf_k
+ keyword_rank)` with a zero term for every list the item is absent from
(ranks 1-based, input scores fresh from the two searches, ids unique per
list), and every input item appears in the fused output; in the concrete
scenario `rrf_k = 60`, weights `0.7/0.3`, vector `[A, B, C]`, keyword
`[B, A, D]`, the exact scores are `A = 7/610 + 3/620 ≈ 0.016314`,
`B = 7/620 + 3/610 ≈ 0.016208`, `C = 7/630 ≈ 0.011111`,
`D = 3/630 ≈ 0.004762`, ordered `A > B > C > D`. -/
theorem C2_rrf_scores :
    (∀ (fc : FusionCfg) (vr kr : List SR),
      (vr.map (fun r => r.id)).Nodup →
      (kr.map (fun r => r.id)).Nodup →
      (∀ r ∈ vr, r.combined_score = 0) →
      (∀ r ∈ kr, r.combined_score = 0) →
      (∀ e ∈ rrf fc vr kr,
        e.combined_score =
          (match idxOfId e.id vr with
            | some i => fc.vectorWeight / ((fc.rrfK : ℚ) + ((i : ℚ) + 1))
            | none => 0) +
          (match idxOfId e.id kr with
            | some j => fc.keywordWeight / ((fc.rrfK : ℚ) + ((j : ℚ) + 1))
            | none => 0)) ∧
      (∀ r ∈ vr, ∃ e ∈ rrf fc vr kr, e.id = r.id) ∧
      (∀ r ∈ kr, ∃ e ∈ rrf fc vr kr, e.id = r.id)) ∧
    (rrf defaultFusion rrfDemoVec rrfDemoKw = rrfDemoOut ∧
      (7 : ℚ)/610 + 3/620 > 7/620 + 3/610 ∧
      (7 : ℚ)/620 + 3/610 > 7/630 ∧ (7 : ℚ)/630 > 3/630) := by
  constructor
  · intro fc vr kr hv hk hv0 hk0
    have hgv : ∀ (n : Nat) (r e : SR), (gVec fc n r e).id = e.id := fun _ _ _ => rfl
    have hgk : ∀ (n : Nat) (r e : SR), (gKw fc n r e).id = e.id := fun _ _ _ => rfl
    have hnd : ((rrf fc vr kr).map (fun e => e.id)).Nodup := by
      rw [rrf, procKw_eq_foldPass, procVec_eq_foldPass]
      exact idsOf_foldPass_nodup (gKw fc) hgk kr 1 _
        (idsOf_foldPass_nodup (gVec fc) hgv vr 1 [] (by simp))
    refine ⟨?_, ?_, ?_⟩
    · intro e he
      have hl : lookupSR (rrf fc vr kr) e.id = some e :=
        (mem_iff_lookupSR _ hnd e).mp he
      rw [lookupSR_rrf fc vr kr hv hk e.id] at hl
      rcases hj : idxOfId e.id kr with _ | j <;> rw [hj] at hl
      · rcases hi : idxOfId e.id vr with _ | i <;> rw [hi] at hl
        · simp at hl
        · obtain ⟨hid, hmem⟩ := idxOfId_getD e.id vr i hi
          have := hv0 _ hmem
          simp only [Option.some.injEq] at hl
          rw [← hl]
          simp only [gVec, this]
          push_cast
          ring
      · obtain ⟨hidk, hmemk⟩ := idxOfId_getD e.id kr j hj
        have hk0' := hk0 _ hmemk
        rcases hi : idxOfId e.id vr with _ | i <;> rw [hi] at hl
        · simp only [Option.getD_none, Option.some.injEq] at hl
          rw [← hl]
          simp only [gKw, hk0']
          push_cast
          ring
        · obtain ⟨hidv, hmemv⟩ := idxOfId_getD e.id vr i hi
          have hv0' := hv0 _ hmemv
          simp only [Option.getD_some, Option.some.injEq] at hl
          rw [← hl]
          simp only [gKw, gVec, hv0']
          push_cast
          ring
    · intro r hr
      have hsome := idxOfId_isSome_of_mem r vr hr
      rcases hi : idxOfId r.id vr with _ | i
      · rw [hi] at hsome; simp at hsome
      · have hchar := lookupSR_rrf fc vr kr hv hk r.id
        rcases hj : idxOfId r.id kr with _ | j <;> rw [hj, hi] at hchar
        · exact ⟨_, List.mem_of_find?_eq_some hchar, lookupSR_id _ _ _ hchar⟩
        · exact ⟨_, List.mem_of_find?_eq_some hchar, lookupSR_id _ _ _ hchar⟩
    · intro r hr
      have hsome := idxOfId_isSome_of_mem r kr hr
      rcases hj : idxOfId r.id kr with _ | j
      · rw [hj] at hsome; simp at hsome
      · have hchar := lookupSR_rrf fc vr kr hv hk r.id
        rw [hj] at hchar
        rcases hi : idxOfId r.id vr with _ | i <;> rw [hi] at hchar
        · exact ⟨_, List.mem_of_find?_eq_some hchar, lookupSR_id _ _ _ hchar⟩
        · exact ⟨_, List.mem_of_find?_eq_some hchar, lookupSR_id _ _ _ hchar⟩
  · refine ⟨?_, by norm_num, by norm_num, by norm_num⟩
    simp only [rrf, procKw, procVec, rrfDemoVec, rrfDemoKw, upsertEntry,
      defaultFusion, gVec, gKw]
    simp
    norm_num [rrfDemoOut, SR.mk.injEq]

/-- Witness for C2: the general score formula instantiated at the concrete
A/B/C/D scenario, hypotheses discharged by evaluation. -/
theorem C2_rrf_scores_witness :
    ((rrfDemoVec.map (fun r => r.id)).Nodup ∧
      (rrfDemoKw.map (fun r => r.id)).Nodup ∧
      (∀ r ∈ rrfDemoVec, r.combined_score = 0) ∧
      (∀ r ∈ rrfDemoKw, r.combined_score = 0)) ∧
    (∀ e ∈ rrf defaultFusion rrfDemoVec rrfDemoKw,
      e.combined_score =
        (match idxOfId e.id rrfDemoVec with
          | some i => defaultFusion.vectorWeight / ((defaultFusion.rrfK : ℚ) + ((i : ℚ) + 1))
          | none => 0) +
        (match idxOfId e.id rrfDemoKw with
          | some j => defaultFusion.keywordWeight / ((defaultFusion.rrfK : ℚ) + ((j : ℚ) + 1))
          | none => 0)) :=
  ⟨⟨by decide, by decide, by intro r hr; fin_cases hr <;> rfl,
      by intro r hr; fin_cases hr <;> rfl⟩,
    (C2_rrf_scores.1 defaultFusion rrfDemoVec rrfDemoKw (by decide) (by decide)
      (by intro r hr; fin_cases hr <;> rfl) (by intro r hr; fin_cases hr <;> rfl)).1⟩

/-! ## Sorting lemmas -/

theorem mem_insDesc (key : α → ℚ) (x a : α) (l : List α) :
    a ∈ insDesc key x l ↔ a = x ∨ a ∈ l := by
  induction l with
  | nil => simp [insDesc]
  | cons y ys ih =>
    by_cases h : key x < key y
    · simp only [insDesc, if_pos h, List.mem_cons, ih]
      tauto
    · simp only [insDesc, if_neg h, List.mem_cons]

theorem pairwise_insDesc (key : α → ℚ) (x : α) (l : List α)
    (h : l.Pairwise (fun a b => key b ≤ key a)) :
    (insDesc key x l).Pairwise (fun a b => key b ≤ key a) := by
  induction l with
  | nil => simp [insDesc]
  | cons y ys ih =>
    rw [List.pairwise_cons] at h
    by_cases hxy : key x < key y
    · rw [insDesc, if_pos hxy, List.pairwise_cons]
      refine ⟨?_, ih h.2⟩
      intro b hb
      rcases (mem_insDesc key x b ys).mp hb with rfl | hb
      · exact le_of_lt hxy
      · exact h.1 b hb
    · rw [insDesc, if_neg hxy, List.pairwise_cons]
      refine ⟨?_, List.pairwise_cons.mpr h⟩
      intro b hb
      rcases List.mem_cons.mp hb with rfl | hb
      · exact le_of_not_lt hxy
      · exact le_trans (h.1 b hb) (le_of_not_lt hxy)

theorem mem_sortDescBy (key : α → ℚ) (l : List α) (a : α) :
    a ∈ sortDescBy key l ↔ a ∈ l := by
  induction l with
  | nil => simp [sortDescBy]
  | cons x xs ih => simp [sortDescBy, mem_insDesc, ih]

theorem pairwise_sortDescBy (key : α → ℚ) (l : List α) :
    (sortDescBy key l).Pairwise (fun a b => key b ≤ key a) := by
  induction l with
  | nil => simp [sortDescBy]
  | cons x xs ih => exact pairwise_insDesc key x _ ih

/-! ## Provenance of scores through fusion -/

theorem mem_upsertEntry (rid : String) (init : SR) (f : SR → SR) (m : List SR)
    (e0 : SR) (h : e0 ∈ upsertEntry rid init f m) :
    e0 ∈ m ∨ (∃ e1 ∈ m, e1.id = rid ∧ e0 = f e1) ∨ e0 = f init := by
  by_cases hm : (m.any (fun x => x.id = rid)) = true
  · rw [upsertEntry, if_pos hm] at h
    obtain ⟨e1, he1, hval⟩ := List.mem_map.mp h
    by_cases hid : e1.id = rid
    · rw [if_pos hid] at hval
      exact Or.inr (Or.inl ⟨e1, he1, hid, hval.symm⟩)
    · rw [if_neg hid] at hval
      exact Or.inl (hval ▸ he1)
  · rw [upsertEntry, if_neg hm] at h
    rcases List.mem_append.mp h with h' | h'
    · exact Or.inl h'
    · exact Or.inr (Or.inr (List.mem_singleton.mp h'))

/-- Every entry of a fused map carries the `vector_score` of some entry of
the initial map or of some processed result, provided each update keeps
either the entry's or the incoming result's `vector_score`. -/
theorem foldPass_vector_src (g : Nat → SR → SR → SR)
    (hgid : ∀ n r e, (g n r e).id = e.id)
    (hgv : ∀ n r e, (g n r e).vector_score = e.vector_score ∨
      (g n r e).vector_score = r.vector_score)
    (rs : List SR) (rank : Nat) (m : List SR) (e : SR)
    (he : e ∈ foldPass g rs rank m) :
    (∃ e0 ∈ m, e.id = e0.id ∧ e.vector_score = e0.vector_score) ∨
      (∃ r ∈ rs, e.id = r.id ∧ e.vector_score = r.vector_score) := by
  induction rs generalizing rank m with
  | nil => exact Or.inl ⟨e, he, rfl, rfl⟩
  | cons r rs ih =>
    rcases ih (rank + 1) _ he with ⟨e0, he0, hid, hv⟩ | ⟨r', hr', hid, hv⟩
    · rcases mem_upsertEntry r.id r (g rank r) m e0 he0 with h' | ⟨e1, he1, hide1, hval⟩ | hval
      · exact Or.inl ⟨e0, h', hid, hv⟩
      · rcases hgv rank r e1 with hkeep | htake
        · exact Or.inl ⟨e1, he1, by rw [hid, hval, hgid], by rw [hv, hval, hkeep]⟩
        · refine Or.inr ⟨r, List.mem_cons_self r rs, ?_, by rw [hv, hval, htake]⟩
          rw [hid, hval, hgid, hide1]
      · rcases hgv rank r r with hkeep | htake
        · exact Or.inr ⟨r, List.mem_cons_self r rs,
            by rw [hid, hval, hgid], by rw [hv, hval, hkeep]⟩
        · exact Or.inr ⟨r, List.mem_cons_self r rs,
            by rw [hid, hval, hgid], by rw [hv, hval, htake]⟩
    · exact Or.inr ⟨r', List.mem_cons_of_mem r hr', hid, hv⟩

/-- Every fused result carries the `vector_score` of some vector result or
of some keyword result with the same id. -/
theorem rrf_vector_src (fc : FusionCfg) (vr kr : List SR) (e : SR)
    (he : e ∈ rrf fc vr kr) :
    (∃ v ∈ vr, e.id = v.id ∧ e.vector_score = v.vector_score) ∨
      (∃ k ∈ kr, e.id = k.id ∧ e.vector_score = k.vector_score) := by
  rw [rrf, procKw_eq_foldPass, procVec_eq_foldPass] at he
  rcases foldPass_vector_src (gKw fc) (fun _ _ _ => rfl) (fun _ _ _ => Or.inl rfl)
      kr 1 _ e he with ⟨e0, he0, hid, hv⟩ | ⟨k, hk, hid, hv⟩
  · rcases foldPass_vector_src (gVec fc) (fun _ _ _ => rfl) (fun _ _ _ => Or.inr rfl)
        vr 1 [] e0 he0 with ⟨e1, he1, _, _⟩ | ⟨v, hv', hid', hv''⟩
    · exact absurd he1 (List.not_mem_nil e1)
    · exact Or.inl ⟨v, hv', by rw [hid, hid'], by rw [hv, hv'']⟩
  · exact Or.inr ⟨k, hk, hid, hv⟩

theorem keywordSearch_vector_score_zero (tsRank : List Char → String → Option ℚ)
    (rows : List DocRow) (q : List Char) (limit : Nat) (r : SR)
    (hr : r ∈ keywordSearch tsRank rows q limit) : r.vector_score = 0 := by
  rw [keywordSearch] at hr
  by_cases h : preprocessQuery q = []
  · rw [if_pos h] at hr
    exact absurd hr (List.not_mem_nil r)
  · rw [if_neg h] at hr
    obtain ⟨p, _, hval⟩ := List.mem_map.mp hr
    rw [← hval]

/-- C6: vector search returns a list ordered by descending similarity
(`1 - cosine_distance` of the stored row against the query vector),
containing only candidates whose similarity clears the threshold, truncated
to the limit; consequently a hybrid result whose id appears in no keyword
candidate — one admitted solely via the vector signal — never has
`vector_score` below the threshold. -/
theorem C6_vector_search_contract (dist : List ℚ → List ℚ → ℚ) (rows : List DocRow)
    (qv : List ℚ) (limit : Nat) (threshold : ℚ) :
    (vectorSearch dist rows (some qv) limit threshold).Pairwise
        (fun a b => b.vector_score ≤ a.vector_score) ∧
    (∀ r ∈ vectorSearch dist rows (some qv) limit threshold,
      threshold ≤ r.vector_score) ∧
    (vectorSearch dist rows (some qv) limit threshold).length ≤ limit ∧
    (∀ r ∈ vectorSearch dist rows (some qv) limit threshold,
      ∃ row ∈ rows, r.id = row.chunk_id ∧
        r.vector_score = 1 - dist row.embedding qv) ∧
    (∀ (fc : FusionCfg) (tsRank : List Char → String → Option ℚ) (q : List Char)
        (r : SR),
      r ∈ searchDocuments fc dist tsRank rows (some qv) q limit threshold →
      (∀ k ∈ keywordSearch tsRank rows q (limit * 2), k.id ≠ r.id) →
      threshold ≤ r.vector_score) := by
  have hthrall : ∀ (L : Nat) (r : SR),
      r ∈ vectorSearch dist rows (some qv) L threshold →
      threshold ≤ r.vector_score := by
    intro L r hr
    rw [vectorSearch] at hr
    by_cases hq : qv = []
    · rw [if_pos hq] at hr
      exact absurd hr (List.not_mem_nil r)
    · rw [if_neg hq] at hr
      obtain ⟨p, hp, hval⟩ := List.mem_map.mp hr
      have hpf := (List.take_subset _ _) hp
      rw [mem_sortDescBy] at hpf
      have := List.of_mem_filter hpf
      rw [← hval]
      simpa using this
  refine ⟨?_, hthrall limit, ?_, ?_, ?_⟩
  · rw [vectorSearch]
    by_cases hq : qv = []
    · rw [if_pos hq]
      exact List.Pairwise.nil
    · rw [if_neg hq]
      rw [List.pairwise_map]
      exact ((pairwise_sortDescBy (fun p : DocRow × ℚ => p.2) _).sublist
        (List.take_sublist _ _))
  · rw [vectorSearch]
    by_cases hq : qv = []
    · rw [if_pos hq]
      simp
    · rw [if_neg hq]
      rw [List.length_map]
      exact List.length_take_le _ _
  · intro r hr
    rw [vectorSearch] at hr
    by_cases hq : qv = []
    · rw [if_pos hq] at hr
      exact absurd hr (List.not_mem_nil r)
    · rw [if_neg hq] at hr
      obtain ⟨p, hp, hval⟩ := List.mem_map.mp hr
      have hpf := (List.take_subset _ _) hp
      rw [mem_sortDescBy] at hpf
      obtain ⟨row, hrow, hpval⟩ := List.mem_map.mp (List.mem_of_mem_filter hpf)
      refine ⟨row, hrow, ?_, ?_⟩ <;> rw [← hval, ← hpval]
  · intro fc tsRank q r hr hnk
    simp only [searchDocuments] at hr
    by_cases hk :
        vectorSearch dist rows (some qv) (limit * 2) threshold = [] ∧
          keywordSearch tsRank rows q (limit * 2) = []
    · rw [if_pos hk] at hr
      exact absurd hr (List.not_mem_nil r)
    · rw [if_neg hk] at hr
      have hmem : r ∈ rrf fc (vectorSearch dist rows (some qv) (limit * 2) threshold)
          (keywordSearch tsRank rows q (limit * 2)) := by
        have h0 := (List.take_subset _ _) hr
        rw [mem_sortDescBy] at h0
        exact h0
      rcases rrf_vector_src fc _ _ r hmem with ⟨v, hv, _, hveq⟩ | ⟨k, hk', hid, _⟩
      · rw [hveq]
        exact hthrall (limit * 2) v hv
      · exact absurd hid.symm (hnk k hk')

/-- Witness for C6 at a concrete store and query: a singleton row with
similarity 1 is returned and clears the threshold 0. -/
theorem C6_vector_search_contract_witness :
    (⟨"r1", "c1", 1, 0, 0, none⟩ : SR) ∈
        vectorSearch (fun _ _ => 0) [⟨"r1", "c1", none, [1]⟩] (some [1]) 1 0 ∧
    (0 : ℚ) ≤ (SR.mk "r1" "c1" 1 0 0 none).vector_score :=
  have hmem : (⟨"r1", "c1", 1, 0, 0, none⟩ : SR) ∈
      vectorSearch (fun _ _ => 0) [⟨"r1", "c1", none, [1]⟩] (some [1]) 1 0 := by
    norm_num [vectorSearch, sortDescBy, insDesc]
  ⟨hmem,
    (C6_vector_search_contract (fun _ _ => 0) [⟨"r1", "c1", none, [1]⟩] [1] 1 0).2.1
      _ hmem⟩

/-- C4: with an absent query embedding the hybrid search still returns a
(possibly empty) list built from the keyword signal alone, every returned
result has `vector_score = 0`, and empty candidates on both sides produce
an empty result rather than an error. -/
theorem C4_absent_embedding_degrades (fc : FusionCfg) (dist : List ℚ → List ℚ → ℚ)
    (tsRank : List Char → String → Option ℚ) (rows : List DocRow) (q : List Char)
    (limit : Nat) (threshold : ℚ) :
    (searchDocuments fc dist tsRank rows none q limit threshold =
      if keywordSearch tsRank rows q (limit * 2) = [] then []
      else
        (sortDescBy (fun e => e.combined_score)
            (rrf fc [] (keywordSearch tsRank rows q (limit * 2)))).take limit) ∧
    (∀ r ∈ searchDocuments fc dist tsRank rows none q limit threshold,
      r.vector_score = 0) ∧
    (keywordSearch tsRank rows q (limit * 2) = [] →
      searchDocuments fc dist tsRank rows none q limit threshold = []) := by
  have hvec : vectorSearch dist rows none (limit * 2) threshold = [] := rfl
  refine ⟨?_, ?_, ?_⟩
  · simp only [searchDocuments]
    rw [hvec]
    by_cases hk : keywordSearch tsRank rows q (limit * 2) = []
    · rw [if_pos ⟨rfl, hk⟩, if_pos hk]
    · rw [if_neg (fun h => hk h.2), if_neg hk]
  · intro r hr
    simp only [searchDocuments] at hr
    rw [hvec] at hr
    by_cases hk : keywordSearch tsRank rows q (limit * 2) = []
    · rw [if_pos ⟨rfl, hk⟩] at hr
      exact absurd hr (List.not_mem_nil r)
    · rw [if_neg (fun h => hk h.2)] at hr
      have hmem : r ∈ rrf fc [] (keywordSearch tsRank rows q (limit * 2)) := by
        have h0 := (List.take_subset _ _) hr
        rw [mem_sortDescBy] at h0
        exact h0
      rcases rrf_vector_src fc [] _ r hmem with ⟨v, hv, _, _⟩ | ⟨k, hk', hid, hveq⟩
      · exact absurd hv (List.not_mem_nil v)
      · rw [hveq]
        exact keywordSearch_vector_score_zero tsRank rows q (limit * 2) k hk'
  · intro hk
    simp only [searchDocuments]
    rw [hvec]
    rw [if_pos ⟨rfl, hk⟩]

/-- Witness for C4 at a concrete input: no keyword matches and an absent
embedding yield the empty result list. -/
theorem C4_absent_embedding_degrades_witness :
    keywordSearch (fun _ _ => none) [] "q".data (1 * 2) = [] ∧
    searchDocuments defaultFusion (fun _ _ => 0) (fun _ _ => none) [] none "q".data
        1 0 = [] :=
  ⟨rfl,
    (C4_absent_embedding_degrades defaultFusion (fun _ _ => 0) (fun _ _ => none) []
        "q".data 1 0).2.2 rfl⟩

/-! ## Query preprocessing lemmas -/

theorem word_not_space (c : Char) (h : isWordChar c = true) : isPySpace c = false := by
  by_contra h'
  have h'' : isPySpace c = true := by
    revert h'
    cases isPySpace c <;> simp
  simp only [isPySpace, Bool.or_eq_true, decide_eq_true_eq] at h''
  rcases h'' with ((((rfl | rfl) | rfl) | rfl) | rfl) | rfl <;> simp [isWordChar] at h

theorem foldr_fun_congr (f g : α → β → β) (h : ∀ a b, f a b = g a b) (b : β)
    (l : List α) : l.foldr f b = l.foldr g b := by
  induction l with
  | nil => rfl
  | cons a l ih => simp [List.foldr_cons, ih, h]

/-- Replacing punctuation by spaces and splitting on whitespace extracts
exactly the maximal word-character runs of the original query. -/
theorem runsBy_pySub (q : List Char) :
    runsBy (fun c => !isPySpace c) (pySub q) = runsBy isWordChar q := by
  unfold runsBy pySub
  rw [List.foldr_map]
  rw [foldr_fun_congr
    (fun c st => runsStep (fun c => !isPySpace c)
      (if isWordChar c || isPySpace c then c else ' ') st)
    (runsStep isWordChar)
    (fun c st => by
      rcases hw : isWordChar c with _ | _
      · rcases hs : isPySpace c with _ | _
        · have hcond : (isWordChar c || isPySpace c) = false := by rw [hw, hs]; rfl
          show runsStep (fun c => !isPySpace c)
              (if isWordChar c || isPySpace c then c else ' ') st =
            runsStep isWordChar c st
          rw [show (if isWordChar c || isPySpace c then c else ' ') = ' ' from by
            rw [hcond]; rfl]
          simp only [runsStep]
          have h1 : (!isPySpace ' ') = false := rfl
          simp [h1, hw]
        · simp [runsStep, hw, hs]
      · simp [runsStep, hw, word_not_space c hw])]

theorem runsBy_forall (p : Char → Bool) (l : List Char) :
    ∀ tk ∈ runsBy p l, tk ≠ [] ∧ ∀ c ∈ tk, p c = true := by
  suffices h : (∀ c ∈ (l.foldr (runsStep p) ([], [])).1, p c = true) ∧
      (∀ tk ∈ (l.foldr (runsStep p) ([], [])).2, tk ≠ [] ∧ ∀ c ∈ tk, p c = true) by
    intro tk htk
    rw [runsBy] at htk
    by_cases hr : (l.foldr (runsStep p) ([], [])).1 = []
    · rw [if_pos hr] at htk
      exact h.2 tk htk
    · rw [if_neg hr] at htk
      rcases List.mem_cons.mp htk with rfl | htk'
      · exact ⟨hr, h.1⟩
      · exact h.2 tk htk'
  induction l with
  | nil => exact ⟨by simp, by simp⟩
  | cons c l ih =>
    rw [List.foldr_cons]
    rcases hp : p c with _ | _
    · simp only [runsStep, hp, Bool.false_eq_true, if_neg]
      refine ⟨by simp, ?_⟩
      intro tk htk
      by_cases hcur : (l.foldr (runsStep p) ([], [])).1 = []
      · rw [if_pos hcur] at htk
        exact ih.2 tk htk
      · rw [if_neg hcur] at htk
        rcases List.mem_cons.mp htk with rfl | htk'
        · exact ⟨hcur, ih.1⟩
        · exact ih.2 tk htk'
    · simp only [runsStep, hp, if_pos]
      refine ⟨?_, ih.2⟩
      intro c' hc'
      rcases List.mem_cons.mp hc' with rfl | hc''
      · exact hp
      · exact ih.1 c' hc''

theorem pyStrip_eq_self (l : List Char) (h : ∀ c ∈ l, isPySpace c = false) :
    pyStrip l = l := by
  have h1 : l.dropWhile isPySpace = l := by
    cases l with
    | nil => rfl
    | cons c cs => simp [List.dropWhile_cons, h c (List.mem_cons_self c cs)]
  have h2 : l.reverse.dropWhile isPySpace = l.reverse := by
    cases hr : l.reverse with
    | nil => rfl
    | cons c cs =>
      have hc : c ∈ l := by
        rw [← List.mem_reverse, hr]
        exact List.mem_cons_self c cs
      simp [List.dropWhile_cons, h c hc]
  rw [pyStrip, h1, h2, List.reverse_reverse]

theorem tokens_strip_id (s : List Char) :
    ((runsBy (fun c => !isPySpace c) s).map pyStrip).filter (· ≠ []) =
      runsBy (fun c => !isPySpace c) s := by
  have hf := runsBy_forall (fun c => !isPySpace c) s
  rw [List.map_congr_left (fun tk htk =>
    pyStrip_eq_self tk (fun c hc => by
      have := (hf tk htk).2 c hc
      simpa using this))]
  rw [List.map_id']
  refine List.filter_eq_self.mpr (fun tk htk => ?_)
  simpa using (hf tk htk).1

/-- The maximal runs of word characters (alphanumerics and underscore) of a
query: the terms its preprocessing actually produces. -/
def wordRuns (q : List Char) : List (List Char) :=
  runsBy isWordChar q

/-- C7 (amended): query preprocessing does not delete punctuation in place —
every character that is neither a word character (alphanumeric or
underscore) nor whitespace acts as a term separator, so the surviving terms
are exactly the maximal word-character runs of the query, joined with
`' | '`; and when no term survives, keyword search returns an empty list
without consulting the store. -/
theorem C7_query_preprocessing :
    (∀ q : List Char, preprocessQuery q = joinSep " | ".data (wordRuns q)) ∧
    (∀ (tsRank : List Char → String → Option ℚ) (rows : List DocRow) (q : List Char)
        (limit : Nat), wordRuns q = [] → keywordSearch tsRank rows q limit = []) := by
  have hpre : ∀ q : List Char, preprocessQuery q = joinSep " | ".data (wordRuns q) := by
    intro q
    rw [preprocessQuery, tokens_strip_id, runsBy_pySub, wordRuns]
  refine ⟨hpre, ?_⟩
  intro tsRank rows q limit hq
  rw [keywordSearch, if_pos (by rw [hpre q, hq]; rfl)]

/-- Witness for C7: a pure-punctuation query produces no terms and keyword
search returns the empty list without consulting the (non-empty) store. -/
theorem C7_query_preprocessing_witness :
    wordRuns "!!!".data = [] ∧
    keywordSearch (fun _ _ => some 1) [⟨"r1", "c1", none, [1]⟩] "!!!".data 5 = [] :=
  ⟨by decide,
    C7_query_preprocessing.2 (fun _ _ => some 1) [⟨"r1", "c1", none, [1]⟩] "!!!".data 5
      (by decide)⟩

/-- Alphanumeric characters in the claim's sense (letters and digits, no
underscore). -/
def isAlnumChar (c : Char) : Bool :=
  ('a' ≤ c && c ≤ 'z') || ('A' ≤ c && c ≤ 'Z') || ('0' ≤ c && c ≤ '9')

/-- Preprocessing as the claim literally words it: delete every character
that is neither alphanumeric nor whitespace, then split what remains on
whitespace and join the surviving terms with `' | '`. -/
def claimPreprocess (q : List Char) : List Char :=
  joinSep " | ".data
    (runsBy (fun c => !isPySpace c) (q.filter (fun c => isAlnumChar c || isPySpace c)))

/-- Counterexample to C7 as stated: the code replaces punctuation by a
space instead of deleting it (so `"a.b"` yields the two terms `a | b`, not
the single term `ab`), and it keeps underscores, which are not
alphanumeric. -/
theorem C7_counterexample :
    preprocessQuery "a.b".data = "a | b".data ∧
    claimPreprocess "a.b".data = "ab".data ∧
    preprocessQuery "a.b".data ≠ claimPreprocess "a.b".data ∧
    preprocessQuery "_".data = "_".data ∧
    claimPreprocess "_".data = [] := by
  refine ⟨by decide, by decide, by decide, by decide, by decide⟩

/-! ## Paragraph packing: oversized paragraphs are kept whole -/

theorem packParas_cur_oversized (cfg : ChunkCfg) (p : List Char)
    (hbig : cfg.chunkSize < p.length) (hmin : cfg.minChunkSize ≤ p.length) :
    ∀ (ps : List (List Char)) (idx sc : Nat),
      ∃ c ∈ packParas cfg ps p idx sc, c.text = p := by
  have hne : p ≠ [] := by
    intro h
    rw [h] at hbig
    simp at hbig
  intro ps idx sc
  cases ps with
  | nil =>
    rw [packParas, if_pos ⟨hne, hmin⟩]
    exact ⟨⟨p, idx, sc, sc + p.length⟩, List.mem_singleton.mpr rfl, rfl⟩
  | cons q qs =>
    rw [packParas, if_neg (by omega), if_pos ⟨hne, hmin⟩]
    exact ⟨⟨p, idx, sc, sc + p.length⟩, List.mem_cons_self _ _, rfl⟩

theorem packParas_mem_oversized (cfg : ChunkCfg) (p : List Char)
    (hbig : cfg.chunkSize < p.length) (hmin : cfg.minChunkSize ≤ p.length) :
    ∀ ps : List (List Char), p ∈ ps → ∀ (cur : List Char) (idx sc : Nat),
      ∃ c ∈ packParas cfg ps cur idx sc, c.text = p := by
  intro ps
  induction ps with
  | nil => exact fun h => absurd h (List.not_mem_nil p)
  | cons q qs ih =>
    intro hp cur idx sc
    rcases List.mem_cons.mp hp with rfl | hp'
    · simp only [packParas]
      rw [if_neg (by omega)]
      by_cases hflush : cur ≠ [] ∧ cfg.minChunkSize ≤ cur.length
      · rw [if_pos hflush]
        obtain ⟨c, hc, hct⟩ :=
          packParas_cur_oversized cfg p hbig hmin qs (idx + 1) (sc + cur.length + 2)
        exact ⟨c, List.mem_cons_of_mem _ hc, hct⟩
      · rw [if_neg hflush]
        exact packParas_cur_oversized cfg p hbig hmin qs idx sc
    · simp only [packParas]
      by_cases hfit : cur.length + q.length + 2 ≤ cfg.chunkSize
      · rw [if_pos hfit]
        exact ih hp' _ idx sc
      · rw [if_neg hfit]
        by_cases hflush : cur ≠ [] ∧ cfg.minChunkSize ≤ cur.length
        · rw [if_pos hflush]
          obtain ⟨c, hc, hct⟩ := ih hp' q (idx + 1) (sc + cur.length + 2)
          exact ⟨c, List.mem_cons_of_mem _ hc, hct⟩
        · rw [if_neg hflush]
          exact ih hp' q idx sc

/-- C10: in paragraph-packing mode a single paragraph longer than
`chunk_size` is never split — it is emitted as its own chunk (provided it
reaches `min_chunk_size`), so chunks in this mode can exceed `chunk_size`. -/
theorem C10_oversized_paragraph (cfg : ChunkCfg) (input : List Char) (p : List Char)
    (hp : p ∈ splitIntoParagraphs input) (hbig : cfg.chunkSize < p.length)
    (hmin : cfg.minChunkSize ≤ p.length) :
    ∃ c ∈ chunkByParagraphs cfg input, c.text = p :=
  packParas_mem_oversized cfg p hbig hmin (splitIntoParagraphs input) hp [] 0 0

/-- Witness for C10: a 7-character paragraph with `chunk_size = 5` survives
unsplit as its own chunk. -/
theorem C10_oversized_paragraph_witness :
    "aaaaaaa".data ∈ splitIntoParagraphs "aaaaaaa\n\nbb".data ∧
    (⟨5, 0, 1, true, true⟩ : ChunkCfg).chunkSize < "aaaaaaa".data.length ∧
    (⟨5, 0, 1, true, true⟩ : ChunkCfg).minChunkSize ≤ "aaaaaaa".data.length ∧
    ∃ c ∈ chunkByParagraphs ⟨5, 0, 1, true, true⟩ "aaaaaaa\n\nbb".data,
      c.text = "aaaaaaa".data :=
  ⟨by decide, by decide, by decide,
    C10_oversized_paragraph ⟨5, 0, 1, true, true⟩ "aaaaaaa\n\nbb".data "aaaaaaa".data
      (by decide) (by decide) (by decide)⟩

/-! ## Split-point bounds and chunk-loop facts -/

theorem firstHit_some (f : Nat → Option Nat) :
    ∀ (n i v : Nat), firstHit f n i = some v →
      ∃ j, i ≤ j ∧ j < i + n ∧ f j = some v := by
  intro n
  induction n with
  | zero => intro i v h; simp [firstHit] at h
  | succ n ih =>
    intro i v h
    rw [firstHit] at h
    rcases hf : f i with _ | w
    · rw [hf] at h
      obtain ⟨j, h1, h2, h3⟩ := ih (i + 1) v h
      exact ⟨j, by omega, by omega, h3⟩
    · rw [hf] at h
      exact ⟨i, le_refl i, by omega, by rw [hf, Option.some.inj h]⟩

theorem searchRangeAt_le (t : List Char) (target : Nat) :
    searchRangeAt t target ≤ 200 ∧ searchRangeAt t target ≤ target :=
  ⟨min_le_left _ _, le_trans (min_le_right _ _) (min_le_right _ _)⟩

theorem paraHit_ge (cfg : ChunkCfg) (t : List Char) (target v : Nat)
    (h : paraHit cfg t target = some v) : target ≤ v + 199 := by
  rw [paraHit] at h
  by_cases hr : cfg.respectParagraphs = true
  · rw [if_pos hr] at h
    obtain ⟨j, _, hjlt, hfj⟩ := firstHit_some _ _ _ _ h
    obtain ⟨hsr200, hsrt⟩ := searchRangeAt_le t target
    dsimp only at hfj
    split at hfj
    · have := Option.some.inj hfj
      omega
    · split at hfj
      · have := Option.some.inj hfj
        omega
      · exact absurd hfj (by simp)
  · rw [if_neg hr] at h
    exact absurd h (by simp)

theorem sentHit_ge (cfg : ChunkCfg) (t : List Char) (target v : Nat)
    (h : sentHit cfg t target = some v) : target ≤ v + 199 := by
  rw [sentHit] at h
  by_cases hr : cfg.respectSentences = true
  · rw [if_pos hr] at h
    obtain ⟨j, _, hjlt, hfj⟩ := firstHit_some _ _ _ _ h
    obtain ⟨hsr200, hsrt⟩ := searchRangeAt_le t target
    dsimp only at hfj
    split at hfj
    · have := Option.some.inj hfj
      omega
    · split at hfj
      · have := Option.some.inj hfj
        omega
      · exact absurd hfj (by simp)
  · rw [if_neg hr] at h
    exact absurd h (by simp)

theorem wordHit_ge (t : List Char) (target v : Nat)
    (h : wordHit t target = some v) : target ≤ v + 199 := by
  rw [wordHit] at h
  obtain ⟨j, _, hjlt, hfj⟩ := firstHit_some _ _ _ _ h
  obtain ⟨hsr200, hsrt⟩ := searchRangeAt_le t target
  have hj : j < min 50 (searchRangeAt t target) := by omega
  dsimp only at hfj
  split at hfj
  · have := Option.some.inj hfj
    omega
  · split at hfj
    · have := Option.some.inj hfj
      have : j ≤ target := by omega
      omega
    · exact absurd hfj (by simp)

/-- The snapped split point never falls more than 199 characters short of
the requested target. -/
theorem findSplitPoint_ge (cfg : ChunkCfg) (t : List Char) (target : Nat) :
    target ≤ findSplitPoint cfg t target + 199 := by
  rw [findSplitPoint]
  rcases hp : paraHit cfg t target with _ | v
  · rcases hs : sentHit cfg t target with _ | v
    · rcases hw : wordHit t target with _ | v
      · simp only [hp, hs, hw]
        omega
      · simp only [hp, hs, hw]
        exact wordHit_ge t target v hw
    · simp only [hp, hs]
      exact sentHit_ge cfg t target v hs
  · simp only [hp]
    exact paraHit_ge cfg t target v hp

/-- C9 (amended): the loop start chosen for the next iteration — hence the
`start_char` of a chunk emitted at the immediately following iteration —
never precedes the current chunk's `end_char` by more than
`chunk_overlap + 200` characters: the split-point snap can stretch the
overlap past `chunk_overlap` by up to the 200-character search radius, but
no further. -/
theorem C9_next_start_bound (cfg : ChunkCfg) (t : List Char) (s s' : Nat)
    (h : stepNext cfg t s = some s') :
    stepEnd cfg t s ≤ s' + cfg.chunkOverlap + 200 := by
  rw [stepNext] at h
  by_cases h1 : t.length ≤ stepEnd cfg t s
  · rw [if_pos h1] at h
    exact absurd h (by simp)
  · rw [if_neg h1] at h
    by_cases h2 : stepEnd cfg t s - cfg.chunkOverlap ≤ s
    · rw [if_pos h2] at h
      have := Option.some.inj h
      omega
    · rw [if_neg h2] at h
      have := Option.some.inj h
      have hge := findSplitPoint_ge cfg t (stepEnd cfg t s - cfg.chunkOverlap)
      omega

/-- Witness for C9 at a concrete input: a next start is produced and obeys
the `chunk_overlap + 200` bound. -/
theorem C9_next_start_bound_witness :
    stepNext ⟨3, 1, 1, false, false⟩ (List.replicate 10 'a') 0 = some 2 ∧
    stepEnd ⟨3, 1, 1, false, false⟩ (List.replicate 10 'a') 0 ≤ 2 + 1 + 200 :=
  ⟨by decide,
    C9_next_start_bound ⟨3, 1, 1, false, false⟩ (List.replicate 10 'a') 0 2 (by decide)⟩

/-- The chunking loop is deterministic: a start state has at most one
terminating emission list. -/
theorem chunkRun_det (cfg : ChunkCfg) (t : List Char) :
    ∀ (s idx : Nat) (l l' : List Chunk), ChunkRun cfg t s idx l →
      ChunkRun cfg t s idx l' → l = l' := by
  intro s idx l l' h
  induction h generalizing l' with
  | done s idx hs =>
    intro h'
    cases h' with
    | done _ _ _ => rfl
    | brk _ _ hlt _ => omega
    | cont _ _ _ _ hlt _ _ => omega
  | brk s idx hlt hnone =>
    intro h'
    cases h' with
    | done _ _ hs => omega
    | brk _ _ _ _ => rfl
    | cont _ _ s' rest hlt' hsome _ =>
      rw [hnone] at hsome
      exact absurd hsome (by simp)
  | cont s idx s' rest hlt hsome hrun ih =>
    intro h'
    cases h' with
    | done _ _ hs => omega
    | brk _ _ _ hnone =>
      rw [hsome] at hnone
      exact absurd hnone (by simp)
    | cont _ _ s'' rest' hlt' hsome' hrun' =>
      have hss : s' = s'' := Option.some.inj (hsome.symm.trans hsome')
      subst hss
      rw [ih rest' hrun']

theorem emitChunk_min (cfg : ChunkCfg) (t : List Char) (s idx : Nat) (c : Chunk)
    (hc : c ∈ emitChunk cfg t s idx) : cfg.minChunkSize ≤ c.text.length := by
  simp only [emitChunk] at hc
  by_cases h : cfg.minChunkSize ≤ (pyStrip (pySlice t s (stepEnd cfg t s))).length
  · rw [if_pos h] at hc
    rw [List.mem_singleton.mp hc]
    exact h
  · rw [if_neg h] at hc
    exact absurd hc (List.not_mem_nil c)

theorem chunkRun_min_size (cfg : ChunkCfg) (t : List Char) :
    ∀ (s idx : Nat) (l : List Chunk), ChunkRun cfg t s idx l →
      ∀ c ∈ l, cfg.minChunkSize ≤ c.text.length := by
  intro s idx l h
  induction h with
  | done s idx hs => intro c hc; exact absurd hc (List.not_mem_nil c)
  | brk s idx hlt hnone => intro c hc; exact emitChunk_min cfg t s idx c hc
  | cont s idx s' rest hlt hsome hrun ih =>
    intro c hc
    rcases List.mem_append.mp hc with h' | h'
    · exact emitChunk_min cfg t s idx c h'
    · exact ih c h'

/-- C1 (amended): every chunk that `SemanticChunker.chunk` emits — the
final one included — has trimmed length at least `min_chunk_size`; the
final slice of the document is emitted only when it clears that minimum,
and is silently dropped otherwise. -/
theorem C1_min_size (cfg : ChunkCfg) (input : List Char) (l : List Chunk)
    (h : chunkSpec cfg input l) : ∀ c ∈ l, cfg.minChunkSize ≤ c.text.length := by
  obtain ⟨h1, h2⟩ := h
  by_cases ht : pyStrip input = []
  · rw [h1 ht]
    intro c hc
    exact absurd hc (List.not_mem_nil c)
  · exact chunkRun_min_size cfg (pyStrip input) 0 0 l (h2 ht)

/-- A 150-character text emitted whole as a single chunk. -/
def t150 : List Char :=
  List.replicate 150 'a'

/-- Witness for C1 at a concrete input: the default configuration chunks a
150-character text into one chunk of length 150 ≥ 100. -/
theorem C1_min_size_witness :
    chunkSpec defaultCfg t150 (emitChunk defaultCfg t150 0 0) ∧
    ∀ c ∈ emitChunk defaultCfg t150 0 0, defaultCfg.minChunkSize ≤ c.text.length :=
  have hspec : chunkSpec defaultCfg t150 (emitChunk defaultCfg t150 0 0) :=
    ⟨fun h => absurd h (by decide),
      fun _ => ChunkRun.brk 0 0 (by decide) (by decide)⟩
  ⟨hspec, C1_min_size defaultCfg t150 (emitChunk defaultCfg t150 0 0) hspec⟩

/-- Counterexample to C1 as stated: on the non-empty text `"ab"` under the
default (valid) configuration, `chunk` returns the empty list — the final
chunk, whose end reaches `len(text)`, is *not* emitted, because the
`min_chunk_size` filter also applies to it. -/
theorem C1_counterexample :
    chunkSpec defaultCfg "ab".data [] ∧
    (∀ l, chunkSpec defaultCfg "ab".data l → l = []) := by
  have hrun : ChunkRun defaultCfg "ab".data 0 0 [] := by
    have h : ChunkRun defaultCfg "ab".data 0 0 (emitChunk defaultCfg "ab".data 0 0) :=
      ChunkRun.brk 0 0 (by decide) (by decide)
    rw [show emitChunk defaultCfg "ab".data 0 0 = [] from by decide] at h
    exact h
  have hstrip : pyStrip "ab".data = "ab".data := by decide
  constructor
  · exact ⟨fun h => absurd h (by decide), fun _ => by rw [hstrip]; exact hrun⟩
  · intro l hl
    obtain ⟨h1, h2⟩ := hl
    have h := h2 (by decide)
    rw [hstrip] at h
    exact chunkRun_det defaultCfg "ab".data 0 0 l [] h hrun

/-- The C3 failing input: 150 letters, a paragraph break, 300 letters. -/
def t452 : List Char :=
  List.replicate 150 'a' ++ nl2 ++ List.replicate 300 'a'

/-- The C3 failing configuration: `chunk_size=100`, `chunk_overlap=50`,
`min_chunk_size=1`, both boundary preferences on (`0 < overlap < size`). -/
def cfg452 : ChunkCfg :=
  ⟨100, 50, 1, true, true⟩

/-- From cursor 152 the loop of `chunk` never leaves: the split point for
target 252 snaps back to the paragraph break at 150–151, giving
`end = 152 = start`, and the overlap branch then sets `start = end`. -/
theorem noRun152 (idx : Nat) (l : List Chunk) : ¬ ChunkRun cfg452 t452 152 idx l := by
  suffices h : ∀ (s idx : Nat) (l : List Chunk), ChunkRun cfg452 t452 s idx l →
      s = 152 → False from fun hr => h 152 idx l hr rfl
  intro s idx l hrun
  induction hrun with
  | done s idx hlen =>
    intro hs
    rw [hs] at hlen
    exact absurd hlen (by decide)
  | brk s idx hlt hnone =>
    intro hs
    rw [hs] at hnone
    have : stepNext cfg452 t452 152 = some 152 := by decide
    rw [this] at hnone
    exact absurd hnone (by simp)
  | cont s idx s' rest hlt hsome hrun ih =>
    intro hs
    rw [hs] at hsome
    have h152 : stepNext cfg452 t452 152 = some 152 := by decide
    exact ih (Option.some.inj (hsome.symm.trans h152))

/-- C3 (the code bug): on the valid configuration `cfg452`
(`0 < chunk_overlap < chunk_size`) and the 452-character non-empty text
`t452`, the chunking loop never terminates — no emission list satisfies
`chunkSpec` — contradicting the claimed termination within
`len(text)/(chunk_size - chunk_overlap) + 1` iterations. -/
theorem C3_nontermination : ∀ l : List Chunk, ¬ chunkSpec cfg452 t452 l := by
  intro l hl
  obtain ⟨h1, h2⟩ := hl
  have hstrip : pyStrip t452 = t452 := by decide
  have hrun := h2 (by decide)
  rw [hstrip] at hrun
  have h0 : stepNext cfg452 t452 0 = some 152 := by decide
  cases hrun with
  | done _ _ hlen => exact absurd hlen (by decide)
  | brk _ _ hlt hnone =>
    rw [h0] at hnone
    exact absurd hnone (by simp)
  | cont _ _ s' rest hlt hsome hrun' =>
    have hs' : s' = 152 := Option.some.inj (hsome.symm.trans h0)
    subst hs'
    exact noRun152 _ _ hrun'

/-- The C9 counterexample text: 600 characters with sentence endings at
positions 241–242 and 300–301. -/
def t600 : List Char :=
  List.replicate 241 'a' ++ ('.' :: ' ' :: List.replicate 57 'a') ++
    ('.' :: ' ' :: List.replicate 298 'a')

/-- The C9 counterexample configuration: `chunk_size=300`,
`chunk_overlap=50`, `min_chunk_size=1`, sentence snapping on. -/
def cfg600 : ChunkCfg :=
  ⟨300, 50, 1, true, false⟩

/-- Counterexample to C9 as stated: on `cfg600`/`t600`, `chunk` emits the
chunks `(0, 302), (242, 542), (492, 600)` — the first two consecutive
chunks overlap by `302 - 242 = 60` characters, which exceeds
`chunk_overlap = 50`, because the overlap start `302 - 50 = 252` is snapped
backward to the sentence boundary at 242. -/
theorem C9_counterexample :
    ∃ l, chunkSpec cfg600 t600 l ∧ (∀ l', chunkSpec cfg600 t600 l' → l' = l) ∧
      l.map (fun c => (c.start_char, c.end_char)) =
        [(0, 302), (242, 542), (492, 600)] ∧
      242 < 302 ∧ cfg600.chunkOverlap < 302 - 242 := by
  have hstrip : pyStrip t600 = t600 := by decide
  have h0 : stepNext cfg600 t600 0 = some 242 := by decide
  have h242 : stepNext cfg600 t600 242 = some 492 := by decide
  have h492 : stepNext cfg600 t600 492 = none := by decide
  have hrun0 : ChunkRun cfg600 t600 0 0
      (emitChunk cfg600 t600 0 0 ++
        (emitChunk cfg600 t600 242 (0 + (emitChunk cfg600 t600 0 0).length) ++
          emitChunk cfg600 t600 492
            (0 + (emitChunk cfg600 t600 0 0).length +
              (emitChunk cfg600 t600 242
                (0 + (emitChunk cfg600 t600 0 0).length)).length))) :=
    ChunkRun.cont 0 0 242 _ (by decide) h0
      (ChunkRun.cont 242 _ 492 _ (by decide) h242
        (ChunkRun.brk 492 _ (by decide) h492))
  refine ⟨emitChunk cfg600 t600 0 0 ++
      (emitChunk cfg600 t600 242 (0 + (emitChunk cfg600 t600 0 0).length) ++
        emitChunk cfg600 t600 492
          (0 + (emitChunk cfg600 t600 0 0).length +
            (emitChunk cfg600 t600 242
              (0 + (emitChunk cfg600 t600 0 0).length)).length)),
    ⟨fun h => absurd h (by decide), fun _ => ?_⟩, ?_, by decide, by decide⟩
  · rw [hstrip]
    exact hrun0
  · intro l' hl'
    obtain ⟨h1, h2⟩ := hl'
    have h := h2 (by decide)
    rw [hstrip] at h
    exact chunkRun_det cfg600 t600 0 0 l' _ h hrun0
